import Mathlib

/-!
Verification of the hierarchy core of the pyobo repository
(`src/pyobo/api/hierarchy.py`) against its natural-language specification.

Strings (prefixes, local identifiers, CURIEs, relation labels) are modelled
as `List Char`.  A networkx `DiGraph` is modelled as a node list, an
association list from (source, target) pairs to the single `relation`
edge attribute (networkx overwrites edge data on repeated `add_edge`),
and an association list from (node, property-reference) pairs to values
for the node attributes.  The networkx closure functions
`nx.descendants` / `nx.ancestors` compute the set of nodes reachable
from / reaching the source, excluding the source itself, and raise when
the source is not a node; raising is modelled by `Option` / `Except`.
-/

deriving instance DecidableEq for Except

namespace PyObo

/-- Strings of the Python program, modelled as lists of characters. -/
abbrev Str := List Char

/-- A `pyobo.struct.reference.Reference`: a curies-style reference with a
normalized `prefix` field and an `identifier` field (the optional `name`
field plays no role in the hierarchy module and is omitted). -/
structure Ref where
  pfx : Str
  identifier : Str
deriving DecidableEq, Repr

/-- Build the CURIE string `f"{p}:{i}"` used as the node key. -/
def curieOf (p i : Str) : Str := p ++ ':' :: i

/-- Overwrite-or-append update of an association list; models assignment
into a Python/networkx attribute dictionary (`d[k] = v`). -/
def setAssoc {κ ν : Type} [DecidableEq κ] : List (κ × ν) → κ → ν → List (κ × ν)
  | [], k, v => [(k, v)]
  | (k0, v0) :: rest, k, v =>
    if k0 = k then (k, v) :: rest else (k0, v0) :: setAssoc rest k v

/-- Lookup in an association list; models Python dictionary access. -/
def getAssoc {κ ν : Type} [DecidableEq κ] : List (κ × ν) → κ → Option ν
  | [], _ => none
  | (k0, v0) :: rest, k => if k0 = k then some v0 else getAssoc rest k

/-- A networkx directed graph as used by the hierarchy module: insertion
ordered node list, edges carrying their single `relation` attribute, and
per-node attribute dictionaries keyed by property `Reference`s. -/
structure Graph where
  nodes : List Str
  edges : List ((Str × Str) × Str)
  nattrs : List ((Str × Ref) × Str)
deriving DecidableEq, Repr

/-- The empty `nx.DiGraph()`. -/
def Graph.empty : Graph := ⟨[], [], []⟩

/-- Add a node if absent (networkx keeps insertion order, no duplicate). -/
def addNode (ns : List Str) (u : Str) : List Str := if u ∈ ns then ns else ns ++ [u]

/-- Model of `rv.add_edge(u, v, relation=lbl)`: inserts both endpoints as
nodes and sets (overwriting) the edge's `relation` attribute. -/
def addEdge (g : Graph) (u v lbl : Str) : Graph :=
  { nodes := addNode (addNode g.nodes u) v
    edges := setAssoc g.edges (u, v) lbl
    nattrs := g.nattrs }

/-- Model of `rv.nodes[c][q] = v`. -/
def setAttr (g : Graph) (c : Str) (q : Ref) (v : Str) : Graph :=
  { g with nattrs := setAssoc g.nattrs (c, q) v }

/-- The underlying (source, target) pairs of the edge set. -/
def edgePairs (g : Graph) : List (Str × Str) := g.edges.map Prod.fst

/-- Proposition that the graph has a directed edge from `a` to `b`. -/
def EdgeStep (g : Graph) (a b : Str) : Prop := (a, b) ∈ edgePairs g

instance (g : Graph) (a b : Str) : Decidable (EdgeStep g a b) := by
  unfold EdgeStep; infer_instance

/-- Forward reachability (a path of length ≥ 0) in the graph. -/
def Reaches (g : Graph) (a b : Str) : Prop := Relation.ReflTransGen (EdgeStep g) a b

/-- Successors of `u` along an edge-pair list. -/
def esucc (E : List (Str × Str)) (u : Str) : List Str :=
  (E.filter (fun e => decide (e.1 = u))).map Prod.snd

/-- One round of breadth-first frontier expansion.  networkx's
`descendants`/`ancestors` are breadth-first traversals; we model the
traversal by iterating this expansion `length of edge list + 1` times,
which provably reaches the fixed point. -/
def expandE (E : List (Str × Str)) (s : Finset Str) : Finset Str :=
  s ∪ s.biUnion (fun u => (esucc E u).toFinset)

/-- Iterated expansion from a singleton start. -/
def reachAux (E : List (Str × Str)) (u : Str) (n : Nat) : Finset Str :=
  (expandE E)^[n] {u}

/-- The full reachable set (start node included), computed with enough
iterations to reach the fixed point. -/
def reachSet (E : List (Str × Str)) (u : Str) : Finset Str :=
  reachAux E u (E.length + 1)

/-- A row of a filtered relations dataframe, as delivered by
`get_filtered_relations_df`: (source local id, target namespace, target
local id). -/
abbrev Triple := Str × Str × Str

/-- Modelled from the spec: the external Relation Source Adapter
(`get_filtered_relations_df` / `get_filtered_properties_mapping`), which
supplies, per relation type, an ordered collection of triples, and per
property, a mapping from local id to scalar value (Python dict items,
hence with pairwise distinct keys). -/
structure SourceData where
  rels : Ref → List Triple
  propVals : Ref → List (Str × Str)

/-- Modelled from the spec: the `is_a` relation typedef reference
(`pyobo.struct.typedef` is outside the given sources; only its identity
as a lookup key matters here). -/
def isA : Ref := ⟨String.toList "rdfs", String.toList "subClassOf"⟩

/-- Modelled from the spec: the `part_of` relation typedef reference,
bfo:0000050. -/
def partOf : Ref := ⟨String.toList "bfo", String.toList "0000050"⟩

/-- Modelled from the spec: the `has_member` relation typedef reference. -/
def hasMember : Ref := ⟨String.toList "obo", String.toList "has_member"⟩

/-- The parameters of `_get_hierarchy_helper` that shape the graph
(`use_tqdm`, `force`, `force_process`, `version`, `strict` are passed to
the external adapter only and do not affect the build given fixed
adapter output). -/
structure HierConfig where
  includePartOf : Bool
  includeHasMember : Bool
  extraRelations : List Ref
  propList : List Ref
deriving DecidableEq, Repr

/-- The is-a loop of `_get_hierarchy_helper`: for each `(source_id,
target_ns, target_id)` add edge `prefix:source_id -> target_ns:target_id`
with relation `is_a`. -/
def isaPass (pfx : Str) (df : List Triple) (g : Graph) : Graph :=
  df.foldl (fun g t =>
    addEdge g (curieOf pfx t.1) (curieOf t.2.1 t.2.2) (String.toList "is_a")) g

/-- The has-member loop: for each `(target_id, source_ns, source_id)` add
edge `source_ns:source_id -> prefix:target_id` with relation `is_a`. -/
def hasMemberPass (pfx : Str) (df : List Triple) (g : Graph) : Graph :=
  df.foldl (fun g t =>
    addEdge g (curieOf t.2.1 t.2.2) (curieOf pfx t.1) (String.toList "is_a")) g

/-- The first part-of loop: forward edges labeled `part_of`. -/
def partOfFwdPass (pfx : Str) (df : List Triple) (g : Graph) : Graph :=
  df.foldl (fun g t =>
    addEdge g (curieOf pfx t.1) (curieOf t.2.1 t.2.2) (String.toList "part_of")) g

/-- The second part-of loop (`has_part_df`, fetched from the same
`part_of` relation source): reverse edges labeled `part_of`. -/
def partOfRevPass (pfx : Str) (df : List Triple) (g : Graph) : Graph :=
  df.foldl (fun g t =>
    addEdge g (curieOf t.2.1 t.2.2) (curieOf pfx t.1) (String.toList "part_of")) g

/-- The extra-relations loop: edges labeled by the relation's identifier. -/
def extraPass (pfx : Str) (rel : Ref) (df : List Triple) (g : Graph) : Graph :=
  df.foldl (fun g t =>
    addEdge g (curieOf pfx t.1) (curieOf t.2.1 t.2.2) rel.identifier) g

/-- The properties loop: for each `(identifier, value)` item, if
`prefix:identifier` is already a node, set its attribute keyed by the
property reference; otherwise skip the pair. -/
def propsPass (pfx : Str) (q : Ref) (pm : List (Str × Str)) (g : Graph) : Graph :=
  pm.foldl (fun g kv =>
    if curieOf pfx kv.1 ∈ g.nodes then setAttr g (curieOf pfx kv.1) q kv.2 else g) g

/-- Faithful model of `_get_hierarchy_helper` (hence of `get_hierarchy`):
is-a edges, optional has-member folding, optional part-of in both
directions (the same part-of source is fetched twice), extra relations,
then property attachment. -/
def buildHierarchy (pfx : Str) (cfg : HierConfig) (src : SourceData) : Graph :=
  let g1 := isaPass pfx (src.rels isA) Graph.empty
  let g2 := if cfg.includeHasMember then hasMemberPass pfx (src.rels hasMember) g1 else g1
  let g3 := if cfg.includePartOf then
      partOfRevPass pfx (src.rels partOf) (partOfFwdPass pfx (src.rels partOf) g2)
    else g2
  let g4 := cfg.extraRelations.foldl (fun g r => extraPass pfx r (src.rels r) g) g3
  cfg.propList.foldl (fun g q => propsPass pfx q (src.propVals q) g) g4

/-- Python `str.split(sep)` for a single-character separator: splits at
every occurrence, keeping empty pieces. -/
def pysplit : Str → Char → List Str
  | [], _ => [[]]
  | c :: rest, sep =>
    if c = sep then [] :: pysplit rest sep
    else
      match pysplit rest sep with
      | [] => [[c]]
      | h :: t => (c :: h) :: t

/-- Model of the `_pic` helper: with an explicit identifier it joins the
CURIE, otherwise it parses the first argument with `split(":")`; Python
tuple unpacking raises unless the split has exactly two parts, modelled
by `none`. -/
def pic (pfx : Str) (ident : Option Str) : Option (Str × Str × Str) :=
  match ident with
  | some i => some (curieOf pfx i, pfx, i)
  | none =>
    match pysplit pfx ':' with
    | [p, i] => some (pfx, p, i)
    | _ => none

/-- Set of nodes reachable from `u` along forward edges (as computed by
`nx.descendants` before removing the source). -/
def reachF (g : Graph) (u : Str) : Finset Str := reachSet (edgePairs g) u

/-- Set of nodes from which `u` is reachable (as computed by
`nx.ancestors` before removing the source). -/
def reachB (g : Graph) (u : Str) : Finset Str :=
  reachSet ((edgePairs g).map Prod.swap) u

/-- Model of `nx.descendants(g, u)`: reachable nodes except `u`, raising
(`none`) when `u` is not a node. -/
def nxDescendants (g : Graph) (u : Str) : Option (Finset Str) :=
  if u ∈ g.nodes then some ((reachF g u).erase u) else none

/-- Model of `nx.ancestors(g, u)`: nodes with a path to `u` except `u`,
raising (`none`) when `u` is not a node. -/
def nxAncestors (g : Graph) (u : Str) : Option (Finset Str) :=
  if u ∈ g.nodes then some ((reachB g u).erase u) else none

/-- Model of `g.predecessors(u)`. -/
def nxPredecessors (g : Graph) (u : Str) : List Str :=
  ((edgePairs g).filter (fun e => decide (e.2 = u))).map Prod.fst

/-- Model of `hierarchy.subgraph(s).copy()`: the induced subgraph over
the node set `s`, keeping edge and node attributes. -/
def subgraphOf (g : Graph) (s : Finset Str) : Graph :=
  { nodes := g.nodes.filter (fun v => decide (v ∈ s))
    edges := g.edges.filter (fun e => decide (e.1.1 ∈ s) && decide (e.1.2 ∈ s))
    nattrs := g.nattrs.filter (fun a => decide (a.1.1 ∈ s)) }

/-- Body of `get_descendants` after `_pic`: build the hierarchy, return
`None` when the CURIE is not a node, else `nx.ancestors` (backwards). -/
def descendantsCore (t : Option (Str × Str × Str)) (cfg : HierConfig) (src : SourceData) :
    Except Unit (Option (Finset Str)) :=
  match t with
  | none => Except.error ()
  | some (c, p, _) =>
    let h := buildHierarchy p cfg src
    if c ∈ h.nodes then Except.ok (some ((reachB h c).erase c)) else Except.ok none

/-- Model of `get_descendants(prefix, identifier=None, ...)`. -/
def get_descendants (pfx : Str) (ident : Option Str) (cfg : HierConfig) (src : SourceData) :
    Except Unit (Option (Finset Str)) :=
  descendantsCore (pic pfx ident) cfg src

/-- Body of `get_ancestors` after `_pic`: `nx.descendants` (backwards). -/
def ancestorsCore (t : Option (Str × Str × Str)) (cfg : HierConfig) (src : SourceData) :
    Except Unit (Option (Finset Str)) :=
  match t with
  | none => Except.error ()
  | some (c, p, _) =>
    let h := buildHierarchy p cfg src
    if c ∈ h.nodes then Except.ok (some ((reachF h c).erase c)) else Except.ok none

/-- Model of `get_ancestors(prefix, identifier=None, ...)`. -/
def get_ancestors (pfx : Str) (ident : Option Str) (cfg : HierConfig) (src : SourceData) :
    Except Unit (Option (Finset Str)) :=
  ancestorsCore (pic pfx ident) cfg src

/-- Body of `get_children` after `_pic`: the direct predecessor set. -/
def childrenCore (t : Option (Str × Str × Str)) (cfg : HierConfig) (src : SourceData) :
    Except Unit (Option (Finset Str)) :=
  match t with
  | none => Except.error ()
  | some (c, p, _) =>
    let h := buildHierarchy p cfg src
    if c ∈ h.nodes then Except.ok (some (nxPredecessors h c).toFinset) else Except.ok none

/-- Model of `get_children(prefix, identifier=None, ...)`. -/
def get_children (pfx : Str) (ident : Option Str) (cfg : HierConfig) (src : SourceData) :
    Except Unit (Option (Finset Str)) :=
  childrenCore (pic pfx ident) cfg src

/-- Body of `get_subhierarchy` after `_pic`: calls `nx.ancestors` with no
membership guard (so a missing node raises), then induces the subgraph
over the resulting closure. -/
def subhierarchyCore (t : Option (Str × Str × Str)) (cfg : HierConfig) (src : SourceData) :
    Except Unit Graph :=
  match t with
  | none => Except.error ()
  | some (c, p, _) =>
    let h := buildHierarchy p cfg src
    match nxAncestors h c with
    | none => Except.error ()
    | some curies => Except.ok (subgraphOf h curies)

/-- Model of `get_subhierarchy(prefix, identifier=None, ...)`. -/
def get_subhierarchy (pfx : Str) (ident : Option Str) (cfg : HierConfig) (src : SourceData) :
    Except Unit Graph :=
  subhierarchyCore (pic pfx ident) cfg src

/-- Model of `is_descendent(prefix, identifier, ancestor_prefix,
ancestor_identifier)`: true iff `get_descendants` of the ancestor pair
yields a set containing `prefix:identifier` (the error branch cannot
arise because the identifier is passed explicitly). -/
def is_descendent (pfx ident apfx aident : Str) (cfg : HierConfig) (src : SourceData) : Bool :=
  match get_descendants apfx (some aident) cfg src with
  | Except.ok (some d) => decide (curieOf pfx ident ∈ d)
  | _ => false

/-- The `functools.lru_cache` key of `_get_hierarchy_helper`: every
argument of the call participates, in particular `force`. -/
structure HelperKey where
  pfx : Str
  includePartOf : Bool
  includeHasMember : Bool
  extraRelations : List Ref
  propList : List Ref
  useTqdm : Bool
  force : Bool
deriving DecidableEq, Repr

/-- The graph-shaping part of a helper key. -/
def HelperKey.cfg (k : HelperKey) : HierConfig :=
  ⟨k.includePartOf, k.includeHasMember, k.extraRelations, k.propList⟩

/-- State of the process-wide cache, with a counter of how many times the
wrapped builder body actually ran. -/
structure MemoState where
  cache : List (HelperKey × Graph)
  builds : Nat
deriving DecidableEq, Repr

/-- One call through the `lru_cache` wrapper of `_get_hierarchy_helper`:
a hit returns the stored graph unchanged; a miss runs the builder
against the source data fetched with the call's own `force` flag (the
flag is forwarded to the relation source adapter, modelled as a function
from the flag to the delivered data) and stores the result. -/
def helperCall (st : MemoState) (k : HelperKey) (fetch : Bool → SourceData) :
    Graph × MemoState :=
  match getAssoc st.cache k with
  | some g => (g, st)
  | none =>
    let g := buildHierarchy k.pfx k.cfg (fetch k.force)
    (g, ⟨setAssoc st.cache k g, st.builds + 1⟩)

/-! ### Concrete data used by witnesses and counterexamples -/

/-- The namespace string "a". -/
def litA : Str := String.toList "a"

/-- The local identifier "1". -/
def lit1 : Str := String.toList "1"

/-- The local identifier "2". -/
def lit2 : Str := String.toList "2"

/-- The local identifier "3". -/
def lit3 : Str := String.toList "3"

/-- The local identifier "9". -/
def lit9 : Str := String.toList "9"

/-- The default configuration of the hierarchy functions:
`include_part_of=True`, `include_has_member=False`, no extra relations,
no properties. -/
def defCfg : HierConfig := ⟨true, false, [], []⟩

/-- A source whose is-a table holds the single triple ("1", "a", "2"),
giving the edge a:1 -> a:2. -/
def srcUp : SourceData where
  rels := fun r => if r = isA then [(lit1, litA, lit2)] else []
  propVals := fun _ => []

/-- A source whose is-a table holds the single triple ("2", "a", "1"),
giving the edge a:2 -> a:1. -/
def srcDown : SourceData where
  rels := fun r => if r = isA then [(lit2, litA, lit1)] else []
  propVals := fun _ => []

/-- A source producing the self-loop edge a:1 -> a:1. -/
def srcSelfLoop : SourceData where
  rels := fun r => if r = isA then [(lit1, litA, lit1)] else []
  propVals := fun _ => []

/-- A source producing the two-cycle a:1 -> a:2 -> a:1. -/
def srcCycle : SourceData where
  rels := fun r => if r = isA then [(lit1, litA, lit2), (lit2, litA, lit1)] else []
  propVals := fun _ => []

/-- A source whose part-of table holds the single self-referential triple
("1", "a", "1"). -/
def srcPartSelf : SourceData where
  rels := fun r => if r = partOf then [(lit1, litA, lit1)] else []
  propVals := fun _ => []

/-- A source whose part-of table holds the single triple ("1", "a", "2"):
a:1 is part of a:2. -/
def srcPart : SourceData where
  rels := fun r => if r = partOf then [(lit1, litA, lit2)] else []
  propVals := fun _ => []

/-- A source whose has-member table holds the single triple
("1", "a", "2"): member a:1 belongs to owner a:2. -/
def srcMember : SourceData where
  rels := fun r => if r = hasMember then [(lit1, litA, lit2)] else []
  propVals := fun _ => []

/-- A property reference used by the property-attachment examples. -/
def qRef : Ref := ⟨String.toList "q", String.toList "0"⟩

/-- A source with one is-a edge a:1 -> a:2 and property values for the
present node "1" and for the absent local id "9". -/
def srcProps : SourceData where
  rels := fun r => if r = isA then [(lit1, litA, lit2)] else []
  propVals := fun q => if q = qRef then
      [(lit1, String.toList "v1"), (lit9, String.toList "v9")] else []

/-- An adapter whose data changes between a cached fetch (`force=false`)
and a forced re-fetch (`force=true`). -/
def fetchEx : Bool → SourceData := fun b => if b then
    { rels := fun r => if r = isA then [(lit1, litA, lit3)] else []
      propVals := fun _ => [] }
  else srcUp

/-- The helper key of a plain (`force=false`) call on namespace "a". -/
def keyF : HelperKey := ⟨litA, true, false, [], [], false, false⟩

/-- The same configuration with `force=true`. -/
def keyT : HelperKey := ⟨litA, true, false, [], [], false, true⟩

/-- A configuration with has-member folding enabled and part-of disabled. -/
def hmCfg : HierConfig := ⟨false, true, [], []⟩

/-- A configuration requesting the property `qRef`. -/
def pCfg : HierConfig := ⟨true, false, [], [qRef]⟩

/-- The graph memoized by a `force=true` call in the cache-quirk example. -/
def memoG : Graph := buildHierarchy litA keyT.cfg (fetchEx true)

/-- A cache state in which the `force=true` configuration is memoized. -/
def stMemo : MemoState := ⟨[(keyT, memoG)], 1⟩

/-! ### Reachability computation is reachability -/

theorem mem_esucc {E : List (Str × Str)} {u v : Str} :
    v ∈ esucc E u ↔ (u, v) ∈ E := by
  unfold esucc
  simp only [List.mem_map, List.mem_filter, decide_eq_true_eq]
  constructor
  · rintro ⟨⟨a, b⟩, ⟨hab, rfl⟩, rfl⟩
    exact hab
  · intro h
    exact ⟨(u, v), ⟨h, rfl⟩, rfl⟩

theorem subset_expandE (E : List (Str × Str)) (s : Finset Str) : s ⊆ expandE E s :=
  Finset.subset_union_left

theorem expandE_mono (E : List (Str × Str)) {s t : Finset Str} (h : s ⊆ t) :
    expandE E s ⊆ expandE E t :=
  Finset.union_subset_union h (Finset.biUnion_subset_biUnion_of_subset_left _ h)

theorem reachAux_succ (E : List (Str × Str)) (u : Str) (n : Nat) :
    reachAux E u (n + 1) = expandE E (reachAux E u n) := by
  unfold reachAux
  exact Function.iterate_succ_apply' _ _ _

theorem reachAux_subset_succ (E : List (Str × Str)) (u : Str) (n : Nat) :
    reachAux E u n ⊆ reachAux E u (n + 1) := by
  rw [reachAux_succ]
  exact subset_expandE E _

theorem reachAux_mono (E : List (Str × Str)) (u : Str) {m n : Nat} (h : m ≤ n) :
    reachAux E u m ⊆ reachAux E u n := by
  induction n with
  | zero => simp [Nat.le_zero.mp h]
  | succ k ih =>
    rcases Nat.lt_or_ge m (k + 1) with hlt | hge
    · exact (ih (Nat.lt_succ_iff.mp hlt)).trans (reachAux_subset_succ E u k)
    · have : m = k + 1 := Nat.le_antisymm h hge
      subst this
      exact fun x hx => hx

theorem reachAux_sound (E : List (Str × Str)) (u : Str) :
    ∀ n v, v ∈ reachAux E u n → Relation.ReflTransGen (fun a b => (a, b) ∈ E) u v := by
  intro n
  induction n with
  | zero =>
    intro v hv
    have : v = u := by simpa [reachAux] using hv
    subst this
    exact Relation.ReflTransGen.refl
  | succ k ih =>
    intro v hv
    rw [reachAux_succ] at hv
    rcases Finset.mem_union.mp hv with h | h
    · exact ih v h
    · rcases Finset.mem_biUnion.mp h with ⟨w, hw, hvw⟩
      have hstep : (w, v) ∈ E := mem_esucc.mp (List.mem_toFinset.mp hvw)
      exact Relation.ReflTransGen.tail (ih w hw) hstep

theorem reachAux_complete (E : List (Str × Str)) (u v : Str)
    (h : Relation.ReflTransGen (fun a b => (a, b) ∈ E) u v) :
    ∃ n, v ∈ reachAux E u n := by
  induction h with
  | refl => exact ⟨0, by simp [reachAux]⟩
  | tail _ hstep ih =>
    rcases ih with ⟨n, hn⟩
    refine ⟨n + 1, ?_⟩
    rw [reachAux_succ]
    refine Finset.mem_union.mpr (Or.inr ?_)
    exact Finset.mem_biUnion.mpr ⟨_, hn, List.mem_toFinset.mpr (mem_esucc.mpr hstep)⟩

theorem reachAux_bound (E : List (Str × Str)) (u : Str) :
    ∀ n, reachAux E u n ⊆ insert u (E.map Prod.snd).toFinset := by
  intro n
  induction n with
  | zero => simp [reachAux]
  | succ k ih =>
    rw [reachAux_succ]
    intro v hv
    rcases Finset.mem_union.mp hv with h | h
    · exact ih h
    · rcases Finset.mem_biUnion.mp h with ⟨w, _, hvw⟩
      have : (w, v) ∈ E := mem_esucc.mp (List.mem_toFinset.mp hvw)
      exact Finset.mem_insert.mpr (Or.inr (List.mem_toFinset.mpr
        (List.mem_map.mpr ⟨(w, v), this, rfl⟩)))

theorem expandE_fix_iterate (E : List (Str × Str)) {s : Finset Str}
    (h : expandE E s = s) : ∀ k, (expandE E)^[k] s = s := by
  intro k
  induction k with
  | zero => rfl
  | succ n ih => rw [Function.iterate_succ_apply', ih, h]

theorem reachAux_stable_of_fix (E : List (Str × Str)) (u : Str) {m : Nat}
    (h : expandE E (reachAux E u m) = reachAux E u m) :
    ∀ k, m ≤ k → reachAux E u k = reachAux E u m := by
  intro k hk
  have : reachAux E u k = (expandE E)^[k - m] (reachAux E u m) := by
    unfold reachAux
    rw [← Function.iterate_add_apply]
    congr 1
    omega
  rw [this, expandE_fix_iterate E h]

theorem reachAux_fix_exists (E : List (Str × Str)) (u : Str) :
    ∃ m, m ≤ E.length ∧ expandE E (reachAux E u m) = reachAux E u m := by
  by_contra hcon
  push_neg at hcon
  have hgrow : ∀ m, m ≤ E.length + 1 → m + 1 ≤ (reachAux E u m).card := by
    intro m
    induction m with
    | zero =>
      intro _
      simp [reachAux]
    | succ k ih =>
      intro hk
      have hk' : k ≤ E.length := by omega
      have hne := hcon k hk'
      have hsub : reachAux E u k ⊂ reachAux E u (k + 1) := by
        rw [reachAux_succ]
        exact ssubset_of_subset_of_ne (subset_expandE E _) (Ne.symm hne)
      have hlt : (reachAux E u k).card < (reachAux E u (k + 1)).card :=
        Finset.card_lt_card hsub
      have := ih (by omega)
      omega
  have hcard : (reachAux E u (E.length + 1)).card ≤ E.length + 1 := by
    calc (reachAux E u (E.length + 1)).card
        ≤ (insert u (E.map Prod.snd).toFinset).card :=
          Finset.card_le_card (reachAux_bound E u _)
      _ ≤ (E.map Prod.snd).toFinset.card + 1 := Finset.card_insert_le _ _
      _ ≤ (E.map Prod.snd).length + 1 :=
          Nat.add_le_add_right (List.toFinset_card_le _) _
      _ = E.length + 1 := by rw [List.length_map]
  have := hgrow (E.length + 1) (le_refl _)
  omega

/-- Correctness of the iterated expansion: membership in `reachSet`
coincides with reflexive-transitive reachability along the edge list. -/
theorem mem_reachSet (E : List (Str × Str)) (u v : Str) :
    v ∈ reachSet E u ↔ Relation.ReflTransGen (fun a b => (a, b) ∈ E) u v := by
  constructor
  · exact reachAux_sound E u _ v
  · intro h
    rcases reachAux_complete E u v h with ⟨k, hk⟩
    rcases reachAux_fix_exists E u with ⟨m, hm, hfix⟩
    rcases Nat.le_total k (E.length + 1) with hle | hge
    · exact reachAux_mono E u hle hk
    · have h1 : reachAux E u k = reachAux E u m :=
        reachAux_stable_of_fix E u hfix k (by omega)
      have h2 : reachAux E u (E.length + 1) = reachAux E u m :=
        reachAux_stable_of_fix E u hfix _ (by omega)
      unfold reachSet
      rw [h2, ← h1]
      exact hk

/-! ### Structural lemmas about the graph operations -/

theorem getAssoc_setAssoc {κ ν : Type} [DecidableEq κ] (l : List (κ × ν)) (k0 k : κ) (v : ν) :
    getAssoc (setAssoc l k0 v) k = if k = k0 then some v else getAssoc l k := by
  induction l with
  | nil =>
    by_cases h : k = k0
    · subst h; simp [setAssoc, getAssoc]
    · simp [setAssoc, getAssoc, h, Ne.symm h]
  | cons hd tl ih =>
    obtain ⟨k1, v1⟩ := hd
    by_cases h1 : k1 = k0
    · subst h1
      by_cases h2 : k = k1
      · subst h2; simp [setAssoc, getAssoc]
      · simp [setAssoc, getAssoc, h2, Ne.symm h2]
    · by_cases h2 : k = k1
      · subst h2
        simp [setAssoc, getAssoc, h1, Ne.symm h1]
      · simp [setAssoc, getAssoc, h1, h2, Ne.symm h2, ih]

theorem mem_fst_setAssoc {κ ν : Type} [DecidableEq κ] (l : List (κ × ν)) (k0 k : κ) (v : ν) :
    k ∈ (setAssoc l k0 v).map Prod.fst ↔ k = k0 ∨ k ∈ l.map Prod.fst := by
  induction l with
  | nil => simp [setAssoc]
  | cons hd tl ih =>
    obtain ⟨k1, v1⟩ := hd
    by_cases h1 : k1 = k0
    · subst h1
      simp [setAssoc]
    · simp only [setAssoc, if_neg h1, List.map_cons, List.mem_cons, ih]
      tauto

theorem getAssoc_eq_none_keys {κ ν : Type} [DecidableEq κ] (l : List (κ × ν)) (k : κ)
    (h : k ∉ l.map Prod.fst) : getAssoc l k = none := by
  induction l with
  | nil => rfl
  | cons hd tl ih =>
    obtain ⟨k1, v1⟩ := hd
    simp only [List.map_cons, List.mem_cons] at h
    push_neg at h
    simp [getAssoc, Ne.symm h.1, ih h.2]

theorem getAssoc_unique {κ ν : Type} [DecidableEq κ] (l : List (κ × ν))
    (hnd : (l.map Prod.fst).Nodup) {k : κ} {v w : ν}
    (hv : (k, v) ∈ l) (hw : (k, w) ∈ l) : v = w := by
  induction l with
  | nil => cases hv
  | cons hd tl ih =>
    simp only [List.map_cons, List.nodup_cons] at hnd
    rcases List.mem_cons.mp hv with rfl | hv'
    · rcases List.mem_cons.mp hw with h | hw'
      · exact (congrArg Prod.snd h).symm
      · exact absurd (List.mem_map.mpr ⟨(k, w), hw', rfl⟩) hnd.1
    · rcases List.mem_cons.mp hw with rfl | hw'
      · exact absurd (List.mem_map.mpr ⟨(k, v), hv', rfl⟩) hnd.1
      · exact ih hnd.2 hv' hw'

theorem mem_addNode {ns : List Str} {u w : Str} :
    w ∈ addNode ns u ↔ w = u ∨ w ∈ ns := by
  unfold addNode
  by_cases h : u ∈ ns
  · simp only [if_pos h]
    constructor
    · exact Or.inr
    · rintro (rfl | hw)
      · exact h
      · exact hw
  · simp [if_neg h, or_comm]

theorem mem_nodes_addEdge {g : Graph} {u v lbl w : Str} :
    w ∈ (addEdge g u v lbl).nodes ↔ w = u ∨ w = v ∨ w ∈ g.nodes := by
  simp only [addEdge, mem_addNode]
  tauto

theorem mem_edgePairs_addEdge {g : Graph} {u v lbl : Str} {e : Str × Str} :
    e ∈ edgePairs (addEdge g u v lbl) ↔ e = (u, v) ∨ e ∈ edgePairs g := by
  simp only [edgePairs, addEdge]
  exact mem_fst_setAssoc g.edges (u, v) e lbl

theorem nattrs_addEdge (g : Graph) (u v lbl : Str) :
    (addEdge g u v lbl).nattrs = g.nattrs := rfl

theorem nodes_setAttr (g : Graph) (c : Str) (q : Ref) (v : Str) :
    (setAttr g c q v).nodes = g.nodes := rfl

theorem edges_setAttr (g : Graph) (c : Str) (q : Ref) (v : Str) :
    (setAttr g c q v).edges = g.edges := rfl

/-- Preservation of a property through a left fold. -/
theorem foldl_pres {α : Type} (f : Graph → α → Graph) (P : Graph → Prop)
    (hf : ∀ g a, P g → P (f g a)) :
    ∀ (l : List α) (g : Graph), P g → P (l.foldl f g) := by
  intro l
  induction l with
  | nil => exact fun g h => h
  | cons a l ih => exact fun g h => ih (f g a) (hf g a h)

/-- Introduction of a property at one element of a left fold, preserved
by the remaining steps. -/
theorem foldl_intro {α : Type} (f : Graph → α → Graph) (P : Graph → Prop)
    (hf : ∀ g a, P g → P (f g a)) (a : α) (ha : ∀ g, P (f g a)) :
    ∀ (l : List α) (g : Graph), a ∈ l → P (l.foldl f g) := by
  intro l
  induction l with
  | nil => intro g h; cases h
  | cons b l ih =>
    intro g h
    rcases List.mem_cons.mp h with rfl | h'
    · exact foldl_pres f P hf l (f g a) (ha g)
    · exact ih (f g b) h'

/-- Unfolding of `buildHierarchy` into its pass pipeline. -/
theorem buildHierarchy_eq (pfx : Str) (cfg : HierConfig) (src : SourceData) :
    buildHierarchy pfx cfg src =
      cfg.propList.foldl (fun g q => propsPass pfx q (src.propVals q) g)
        (cfg.extraRelations.foldl (fun g r => extraPass pfx r (src.rels r) g)
          (if cfg.includePartOf then
              partOfRevPass pfx (src.rels partOf)
                (partOfFwdPass pfx (src.rels partOf)
                  (if cfg.includeHasMember then
                      hasMemberPass pfx (src.rels hasMember)
                        (isaPass pfx (src.rels isA) Graph.empty)
                    else isaPass pfx (src.rels isA) Graph.empty))
            else if cfg.includeHasMember then
                hasMemberPass pfx (src.rels hasMember)
                  (isaPass pfx (src.rels isA) Graph.empty)
              else isaPass pfx (src.rels isA) Graph.empty)) := rfl

theorem isaPass_pres (P : Graph → Prop)
    (hE : ∀ g u v lbl, P g → P (addEdge g u v lbl))
    (pfx : Str) (df : List Triple) (g : Graph) (h : P g) : P (isaPass pfx df g) :=
  foldl_pres _ P (fun g _ hg => hE g _ _ _ hg) df g h

theorem hasMemberPass_pres (P : Graph → Prop)
    (hE : ∀ g u v lbl, P g → P (addEdge g u v lbl))
    (pfx : Str) (df : List Triple) (g : Graph) (h : P g) : P (hasMemberPass pfx df g) :=
  foldl_pres _ P (fun g _ hg => hE g _ _ _ hg) df g h

theorem partOfFwdPass_pres (P : Graph → Prop)
    (hE : ∀ g u v lbl, P g → P (addEdge g u v lbl))
    (pfx : Str) (df : List Triple) (g : Graph) (h : P g) : P (partOfFwdPass pfx df g) :=
  foldl_pres _ P (fun g _ hg => hE g _ _ _ hg) df g h

theorem partOfRevPass_pres (P : Graph → Prop)
    (hE : ∀ g u v lbl, P g → P (addEdge g u v lbl))
    (pfx : Str) (df : List Triple) (g : Graph) (h : P g) : P (partOfRevPass pfx df g) :=
  foldl_pres _ P (fun g _ hg => hE g _ _ _ hg) df g h

theorem extraPass_pres (P : Graph → Prop)
    (hE : ∀ g u v lbl, P g → P (addEdge g u v lbl))
    (pfx : Str) (rel : Ref) (df : List Triple) (g : Graph) (h : P g) :
    P (extraPass pfx rel df g) :=
  foldl_pres _ P (fun g _ hg => hE g _ _ _ hg) df g h

theorem propsPass_pres (P : Graph → Prop)
    (hA : ∀ g c q v, P g → P (setAttr g c q v))
    (pfx : Str) (q : Ref) (pm : List (Str × Str)) (g : Graph) (h : P g) :
    P (propsPass pfx q pm g) := by
  refine foldl_pres _ P (fun g kv hg => ?_) pm g h
  dsimp only
  split
  · exact hA g _ _ _ hg
  · exact hg

/-- Any property preserved by `add_edge` and node-attribute assignment and
holding for the empty graph holds for every built hierarchy. -/
theorem build_pres (P : Graph → Prop)
    (hE : ∀ g u v lbl, P g → P (addEdge g u v lbl))
    (hA : ∀ g c q v, P g → P (setAttr g c q v))
    (h0 : P Graph.empty) (pfx : Str) (cfg : HierConfig) (src : SourceData) :
    P (buildHierarchy pfx cfg src) := by
  rw [buildHierarchy_eq]
  refine foldl_pres _ P (fun g q hg => propsPass_pres P hA pfx q _ g hg) _ _ ?_
  refine foldl_pres _ P (fun g r hg => extraPass_pres P hE pfx r _ g hg) _ _ ?_
  split
  · refine partOfRevPass_pres P hE _ _ _ (partOfFwdPass_pres P hE _ _ _ ?_)
    split
    · exact hasMemberPass_pres P hE _ _ _ (isaPass_pres P hE _ _ _ h0)
    · exact isaPass_pres P hE _ _ _ h0
  · split
    · exact hasMemberPass_pres P hE _ _ _ (isaPass_pres P hE _ _ _ h0)
    · exact isaPass_pres P hE _ _ _ h0

/-- Every edge of a built hierarchy has both endpoints among the nodes. -/
theorem build_endpoints (pfx : Str) (cfg : HierConfig) (src : SourceData) :
    ∀ e ∈ edgePairs (buildHierarchy pfx cfg src),
      e.1 ∈ (buildHierarchy pfx cfg src).nodes ∧ e.2 ∈ (buildHierarchy pfx cfg src).nodes := by
  refine build_pres
    (fun g => ∀ e ∈ edgePairs g, e.1 ∈ g.nodes ∧ e.2 ∈ g.nodes) ?_ ?_ ?_ pfx cfg src
  · intro g u v lbl hg e he
    rcases mem_edgePairs_addEdge.mp he with rfl | he'
    · exact ⟨mem_nodes_addEdge.mpr (Or.inl rfl),
        mem_nodes_addEdge.mpr (Or.inr (Or.inl rfl))⟩
    · rcases hg e he' with ⟨h1, h2⟩
      exact ⟨mem_nodes_addEdge.mpr (Or.inr (Or.inr h1)),
        mem_nodes_addEdge.mpr (Or.inr (Or.inr h2))⟩
  · intro g c q v hg e he
    exact hg e he
  · intro e he
    cases he

theorem mem_map_swap {l : List (Str × Str)} {a b : Str} :
    (a, b) ∈ l.map Prod.swap ↔ (b, a) ∈ l := by
  rw [List.mem_map]
  constructor
  · rintro ⟨⟨x, y⟩, hxy, h⟩
    obtain ⟨rfl, rfl⟩ := Prod.mk.injEq .. ▸ h
    exact hxy
  · intro h
    exact ⟨(b, a), h, rfl⟩

theorem mem_reachF {g : Graph} {u v : Str} : v ∈ reachF g u ↔ Reaches g u v :=
  mem_reachSet (edgePairs g) u v

theorem mem_reachB {g : Graph} {u v : Str} : v ∈ reachB g u ↔ Reaches g v u := by
  unfold reachB
  rw [mem_reachSet]
  have hrel : (fun a b => (a, b) ∈ (edgePairs g).map Prod.swap) =
      Function.swap (EdgeStep g) := by
    funext a b
    exact propext mem_map_swap
  rw [hrel]
  exact Relation.reflTransGen_swap

/-- A node that reaches `u` nontrivially is itself a node of the graph. -/
theorem reaches_src_mem_nodes {pfx : Str} {cfg : HierConfig} {src : SourceData} {v u : Str}
    (h : Reaches (buildHierarchy pfx cfg src) v u) (hne : v ≠ u) :
    v ∈ (buildHierarchy pfx cfg src).nodes := by
  rcases Relation.ReflTransGen.cases_head h with rfl | ⟨w, hstep, _⟩
  · exact absurd rfl hne
  · exact (build_endpoints pfx cfg src _ hstep).1

/-- A node reached from `u` nontrivially is itself a node of the graph. -/
theorem reaches_tgt_mem_nodes {pfx : Str} {cfg : HierConfig} {src : SourceData} {u v : Str}
    (h : Reaches (buildHierarchy pfx cfg src) u v) (hne : v ≠ u) :
    v ∈ (buildHierarchy pfx cfg src).nodes := by
  rcases (Relation.reflTransGen_iff_eq_or_transGen.mp h) with rfl | htg
  · exact absurd rfl hne
  · rcases Relation.TransGen.tail'_iff.mp htg with ⟨w, _, hstep⟩
    exact (build_endpoints pfx cfg src _ hstep).2

/-! ### Behaviour of the query functions on present nodes -/

theorem get_descendants_eq_of_mem (p i : Str) (cfg : HierConfig) (src : SourceData)
    (h : curieOf p i ∈ (buildHierarchy p cfg src).nodes) :
    get_descendants p (some i) cfg src =
      Except.ok (some ((reachB (buildHierarchy p cfg src) (curieOf p i)).erase
        (curieOf p i))) := by
  simp [get_descendants, descendantsCore, pic, h]

theorem get_ancestors_eq_of_mem (p i : Str) (cfg : HierConfig) (src : SourceData)
    (h : curieOf p i ∈ (buildHierarchy p cfg src).nodes) :
    get_ancestors p (some i) cfg src =
      Except.ok (some ((reachF (buildHierarchy p cfg src) (curieOf p i)).erase
        (curieOf p i))) := by
  simp [get_ancestors, ancestorsCore, pic, h]

theorem get_children_eq_of_mem (p i : Str) (cfg : HierConfig) (src : SourceData)
    (h : curieOf p i ∈ (buildHierarchy p cfg src).nodes) :
    get_children p (some i) cfg src =
      Except.ok (some (nxPredecessors (buildHierarchy p cfg src) (curieOf p i)).toFinset) := by
  simp [get_children, childrenCore, pic, h]

theorem get_subhierarchy_eq_of_mem (p i : Str) (cfg : HierConfig) (src : SourceData)
    (h : curieOf p i ∈ (buildHierarchy p cfg src).nodes) :
    get_subhierarchy p (some i) cfg src =
      Except.ok (subgraphOf (buildHierarchy p cfg src)
        ((reachB (buildHierarchy p cfg src) (curieOf p i)).erase (curieOf p i))) := by
  simp [get_subhierarchy, subhierarchyCore, pic, nxAncestors, h]

/-! ### Claim C2 -/

/-- C2 (counterexample): the claim says no closure query, including
`get_subhierarchy`, ever raises for a missing node.  But for the CURIE
a:9, which is not a node of the hierarchy built from `srcUp`,
`get_subhierarchy` raises (it passes the missing node to `nx.ancestors`
unguarded), modelled by `Except.error`. -/
theorem C2_cex :
    curieOf litA lit9 ∉ (buildHierarchy litA defCfg srcUp).nodes ∧
    get_subhierarchy litA (some lit9) defCfg srcUp = Except.error () := by
  decide

/-- C2 (amended): for a CURIE that is not a node of the hierarchy graph,
`get_descendants`, `get_children` and `get_ancestors` return the unknown
marker `None` without raising, but `get_subhierarchy` raises for the
missing node. -/
theorem C2_missing_node (p i : Str) (cfg : HierConfig) (src : SourceData)
    (h : curieOf p i ∉ (buildHierarchy p cfg src).nodes) :
    get_descendants p (some i) cfg src = Except.ok none ∧
    get_children p (some i) cfg src = Except.ok none ∧
    get_ancestors p (some i) cfg src = Except.ok none ∧
    get_subhierarchy p (some i) cfg src = Except.error () := by
  refine ⟨?_, ?_, ?_, ?_⟩
  · simp [get_descendants, descendantsCore, pic, h]
  · simp [get_children, childrenCore, pic, h]
  · simp [get_ancestors, ancestorsCore, pic, h]
  · simp [get_subhierarchy, subhierarchyCore, pic, nxAncestors, h]

/-- Witness for C2: the amended theorem applied to the concrete missing
node a:9 of the `srcUp` hierarchy. -/
theorem C2_wit :
    curieOf litA lit9 ∉ (buildHierarchy litA defCfg srcUp).nodes ∧
    (get_descendants litA (some lit9) defCfg srcUp = Except.ok none ∧
      get_children litA (some lit9) defCfg srcUp = Except.ok none ∧
      get_ancestors litA (some lit9) defCfg srcUp = Except.ok none ∧
      get_subhierarchy litA (some lit9) defCfg srcUp = Except.error ()) :=
  ⟨by decide, C2_missing_node litA lit9 defCfg srcUp (by decide)⟩

/-! ### Claim C3 -/

/-- C3 (counterexample): the claim says each node on a cycle is a member
of its own ancestor and descendant sets.  In the hierarchy built from
`srcCycle`, with edges a:1 -> a:2 -> a:1, both closure queries on a:1
return exactly the singleton a:2 — a:1 is not a member of its own
ancestor or descendant set, because networkx's closure functions always
exclude the queried node. -/
theorem C3_cex :
    EdgeStep (buildHierarchy litA defCfg srcCycle) (curieOf litA lit1) (curieOf litA lit2) ∧
    EdgeStep (buildHierarchy litA defCfg srcCycle) (curieOf litA lit2) (curieOf litA lit1) ∧
    get_ancestors litA (some lit1) defCfg srcCycle =
      Except.ok (some {curieOf litA lit2}) ∧
    get_descendants litA (some lit1) defCfg srcCycle =
      Except.ok (some {curieOf litA lit2}) ∧
    curieOf litA lit1 ∉ ({curieOf litA lit2} : Finset Str) := by
  decide

/-- C3 (amended): on a hierarchy graph containing a cycle A -> B -> A
with A ≠ B, `get_ancestors` and `get_descendants` of A terminate and
return finite sets that contain B, but A is not a member of its own
ancestor or descendant set (the networkx closures exclude the queried
node). -/
theorem C3_cycle (p i b : Str) (cfg : HierConfig) (src : SourceData)
    (hab : EdgeStep (buildHierarchy p cfg src) (curieOf p i) b)
    (hba : EdgeStep (buildHierarchy p cfg src) b (curieOf p i))
    (hne : b ≠ curieOf p i) :
    (∃ S, get_ancestors p (some i) cfg src = Except.ok (some S) ∧
      b ∈ S ∧ curieOf p i ∉ S) ∧
    (∃ D, get_descendants p (some i) cfg src = Except.ok (some D) ∧
      b ∈ D ∧ curieOf p i ∉ D) := by
  have hmem : curieOf p i ∈ (buildHierarchy p cfg src).nodes :=
    (build_endpoints p cfg src _ hab).1
  constructor
  · refine ⟨_, get_ancestors_eq_of_mem p i cfg src hmem, ?_, ?_⟩
    · exact Finset.mem_erase.mpr
        ⟨hne, mem_reachF.mpr (Relation.ReflTransGen.single hab)⟩
    · exact Finset.not_mem_erase _ _
  · refine ⟨_, get_descendants_eq_of_mem p i cfg src hmem, ?_, ?_⟩
    · exact Finset.mem_erase.mpr
        ⟨hne, mem_reachB.mpr (Relation.ReflTransGen.single hba)⟩
    · exact Finset.not_mem_erase _ _

/-- Witness for C3: the amended theorem applied to the concrete cycle
a:1 -> a:2 -> a:1 of `srcCycle`. -/
theorem C3_wit :
    (EdgeStep (buildHierarchy litA defCfg srcCycle) (curieOf litA lit1) (curieOf litA lit2) ∧
      EdgeStep (buildHierarchy litA defCfg srcCycle) (curieOf litA lit2) (curieOf litA lit1) ∧
      curieOf litA lit2 ≠ curieOf litA lit1) ∧
    ((∃ S, get_ancestors litA (some lit1) defCfg srcCycle = Except.ok (some S) ∧
        curieOf litA lit2 ∈ S ∧ curieOf litA lit1 ∉ S) ∧
      (∃ D, get_descendants litA (some lit1) defCfg srcCycle = Except.ok (some D) ∧
        curieOf litA lit2 ∈ D ∧ curieOf litA lit1 ∉ D)) :=
  ⟨by decide,
    C3_cycle litA lit1 (curieOf litA lit2) defCfg srcCycle
      (by decide) (by decide) (by decide)⟩

/-! ### Claim C1 -/

/-- C1 (counterexample): the claim says for every edge A -> B of a built
hierarchy graph, B is in `get_ancestors(A)` and A is in
`get_descendants(B)`.  The hierarchy built from `srcSelfLoop` has the
self-loop edge a:1 -> a:1, yet both closure queries on a:1 return the
empty set, so the edge target is not a member. -/
theorem C1_cex :
    EdgeStep (buildHierarchy litA defCfg srcSelfLoop) (curieOf litA lit1) (curieOf litA lit1) ∧
    get_ancestors litA (some lit1) defCfg srcSelfLoop = Except.ok (some ∅) ∧
    get_descendants litA (some lit1) defCfg srcSelfLoop = Except.ok (some ∅) ∧
    curieOf litA lit1 ∉ (∅ : Finset Str) := by
  decide

/-- C1 (amended): for a node p:i of a built hierarchy graph,
`get_ancestors` returns exactly the set of nodes reachable from p:i
along forward edges minus p:i itself, and `get_descendants` exactly the
set of nodes from which p:i is reachable minus p:i itself; consequently,
for every edge p:i -> b with b ≠ p:i, b is in `get_ancestors(p,i)`, for
every edge a -> p:i with a ≠ p:i, a is in `get_descendants(p,i)`, and
likewise across two-edge chains with distinct endpoints. -/
theorem C1_closures (p i : Str) (cfg : HierConfig) (src : SourceData)
    (hmem : curieOf p i ∈ (buildHierarchy p cfg src).nodes) :
    (∃ S, get_ancestors p (some i) cfg src = Except.ok (some S) ∧
      ∀ v, v ∈ S ↔ v ≠ curieOf p i ∧ Reaches (buildHierarchy p cfg src) (curieOf p i) v) ∧
    (∃ D, get_descendants p (some i) cfg src = Except.ok (some D) ∧
      ∀ v, v ∈ D ↔ v ≠ curieOf p i ∧ Reaches (buildHierarchy p cfg src) v (curieOf p i)) ∧
    (∀ b, EdgeStep (buildHierarchy p cfg src) (curieOf p i) b → b ≠ curieOf p i →
      ∃ S, get_ancestors p (some i) cfg src = Except.ok (some S) ∧ b ∈ S) ∧
    (∀ a, EdgeStep (buildHierarchy p cfg src) a (curieOf p i) → a ≠ curieOf p i →
      ∃ D, get_descendants p (some i) cfg src = Except.ok (some D) ∧ a ∈ D) ∧
    (∀ b v, EdgeStep (buildHierarchy p cfg src) (curieOf p i) b →
      EdgeStep (buildHierarchy p cfg src) b v → v ≠ curieOf p i →
      ∃ S, get_ancestors p (some i) cfg src = Except.ok (some S) ∧ v ∈ S) ∧
    (∀ a b, EdgeStep (buildHierarchy p cfg src) a b →
      EdgeStep (buildHierarchy p cfg src) b (curieOf p i) → a ≠ curieOf p i →
      ∃ D, get_descendants p (some i) cfg src = Except.ok (some D) ∧ a ∈ D) := by
  have hanc : ∀ v, v ∈ (reachF (buildHierarchy p cfg src) (curieOf p i)).erase (curieOf p i) ↔
      v ≠ curieOf p i ∧ Reaches (buildHierarchy p cfg src) (curieOf p i) v := by
    intro v
    rw [Finset.mem_erase, mem_reachF]
  have hdes : ∀ v, v ∈ (reachB (buildHierarchy p cfg src) (curieOf p i)).erase (curieOf p i) ↔
      v ≠ curieOf p i ∧ Reaches (buildHierarchy p cfg src) v (curieOf p i) := by
    intro v
    rw [Finset.mem_erase, mem_reachB]
  refine ⟨⟨_, get_ancestors_eq_of_mem p i cfg src hmem, hanc⟩,
    ⟨_, get_descendants_eq_of_mem p i cfg src hmem, hdes⟩, ?_, ?_, ?_, ?_⟩
  · intro b hb hne
    exact ⟨_, get_ancestors_eq_of_mem p i cfg src hmem,
      (hanc b).mpr ⟨hne, Relation.ReflTransGen.single hb⟩⟩
  · intro a ha hne
    exact ⟨_, get_descendants_eq_of_mem p i cfg src hmem,
      (hdes a).mpr ⟨hne, Relation.ReflTransGen.single ha⟩⟩
  · intro b v hb hv hne
    exact ⟨_, get_ancestors_eq_of_mem p i cfg src hmem,
      (hanc v).mpr ⟨hne, Relation.ReflTransGen.tail (Relation.ReflTransGen.single hb) hv⟩⟩
  · intro a b ha hb hne
    exact ⟨_, get_descendants_eq_of_mem p i cfg src hmem,
      (hdes a).mpr ⟨hne, Relation.ReflTransGen.tail (Relation.ReflTransGen.single ha) hb⟩⟩

/-- Witness for C1: the amended theorem applied to the hierarchy built
from `srcUp`, whose edge a:1 -> a:2 puts a:2 in `get_ancestors("a","1")`. -/
theorem C1_wit :
    (curieOf litA lit1 ∈ (buildHierarchy litA defCfg srcUp).nodes ∧
      EdgeStep (buildHierarchy litA defCfg srcUp) (curieOf litA lit1) (curieOf litA lit2) ∧
      curieOf litA lit2 ≠ curieOf litA lit1) ∧
    (∃ S, get_ancestors litA (some lit1) defCfg srcUp = Except.ok (some S) ∧
      curieOf litA lit2 ∈ S) :=
  ⟨by decide,
    (C1_closures litA lit1 defCfg srcUp (by decide)).2.2.1
      (curieOf litA lit2) (by decide) (by decide)⟩

/-! ### Claim C4 -/

/-- C4 (counterexample): the claim says the root is a node of the graph
returned by `get_subhierarchy`.  For the hierarchy built from `srcDown`
(edge a:2 -> a:1), `get_subhierarchy` of the present node a:1 returns the
graph with node list [a:2] only — the root a:1 is not a node of the
result, because `nx.ancestors` excludes the queried node from the
closure that the subgraph is induced over. -/
theorem C4_cex :
    curieOf litA lit1 ∈ (buildHierarchy litA defCfg srcDown).nodes ∧
    get_subhierarchy litA (some lit1) defCfg srcDown =
      Except.ok ⟨[curieOf litA lit2], [], []⟩ ∧
    curieOf litA lit1 ∉ (Graph.mk [curieOf litA lit2] [] []).nodes := by
  decide

/-- C4 (amended): for a node p:i of the built hierarchy graph,
`get_subhierarchy` returns the subgraph induced by the descendant
closure of p:i excluding p:i itself: its nodes are exactly the graph
nodes with a nontrivial path to p:i (the root is not among them), its
edges are exactly the original edge entries (with their original
relation labels) whose endpoints both lie in that closure, and its node
attributes are exactly the original attribute entries of closure
nodes. -/
theorem C4_subhierarchy (p i : Str) (cfg : HierConfig) (src : SourceData)
    (hmem : curieOf p i ∈ (buildHierarchy p cfg src).nodes) :
    ∃ sg, get_subhierarchy p (some i) cfg src = Except.ok sg ∧
      (∀ v, v ∈ sg.nodes ↔ v ∈ (buildHierarchy p cfg src).nodes ∧ v ≠ curieOf p i ∧
        Reaches (buildHierarchy p cfg src) v (curieOf p i)) ∧
      (∀ e, e ∈ sg.edges ↔ e ∈ (buildHierarchy p cfg src).edges ∧
        (e.1.1 ≠ curieOf p i ∧ Reaches (buildHierarchy p cfg src) e.1.1 (curieOf p i)) ∧
        (e.1.2 ≠ curieOf p i ∧ Reaches (buildHierarchy p cfg src) e.1.2 (curieOf p i))) ∧
      (∀ a, a ∈ sg.nattrs ↔ a ∈ (buildHierarchy p cfg src).nattrs ∧
        a.1.1 ≠ curieOf p i ∧ Reaches (buildHierarchy p cfg src) a.1.1 (curieOf p i)) ∧
      curieOf p i ∉ sg.nodes := by
  have hD : ∀ v, v ∈ (reachB (buildHierarchy p cfg src) (curieOf p i)).erase (curieOf p i) ↔
      v ≠ curieOf p i ∧ Reaches (buildHierarchy p cfg src) v (curieOf p i) := by
    intro v
    rw [Finset.mem_erase, mem_reachB]
  refine ⟨_, get_subhierarchy_eq_of_mem p i cfg src hmem, ?_, ?_, ?_, ?_⟩
  · intro v
    rw [subgraphOf, List.mem_filter, decide_eq_true_eq, hD]
  · intro e
    rw [subgraphOf, List.mem_filter, Bool.and_eq_true, decide_eq_true_eq,
      decide_eq_true_eq, hD, hD]
  · intro a
    rw [subgraphOf, List.mem_filter, decide_eq_true_eq, hD]
  · rw [subgraphOf, List.mem_filter, decide_eq_true_eq, hD]
    rintro ⟨-, hne, -⟩
    exact hne rfl

/-- Witness for C4: the amended theorem applied to the `srcDown`
hierarchy; node a:2 reaches the root a:1, hence belongs to the returned
subgraph. -/
theorem C4_wit :
    curieOf litA lit1 ∈ (buildHierarchy litA defCfg srcDown).nodes ∧
    (∃ sg, get_subhierarchy litA (some lit1) defCfg srcDown = Except.ok sg ∧
      (∀ v, v ∈ sg.nodes ↔ v ∈ (buildHierarchy litA defCfg srcDown).nodes ∧
        v ≠ curieOf litA lit1 ∧
        Reaches (buildHierarchy litA defCfg srcDown) v (curieOf litA lit1)) ∧
      (∀ e, e ∈ sg.edges ↔ e ∈ (buildHierarchy litA defCfg srcDown).edges ∧
        (e.1.1 ≠ curieOf litA lit1 ∧
          Reaches (buildHierarchy litA defCfg srcDown) e.1.1 (curieOf litA lit1)) ∧
        (e.1.2 ≠ curieOf litA lit1 ∧
          Reaches (buildHierarchy litA defCfg srcDown) e.1.2 (curieOf litA lit1))) ∧
      (∀ a, a ∈ sg.nattrs ↔ a ∈ (buildHierarchy litA defCfg srcDown).nattrs ∧
        a.1.1 ≠ curieOf litA lit1 ∧
        Reaches (buildHierarchy litA defCfg srcDown) a.1.1 (curieOf litA lit1)) ∧
      curieOf litA lit1 ∉ sg.nodes) :=
  ⟨by decide, C4_subhierarchy litA lit1 defCfg srcDown (by decide)⟩

/-! ### Claim C5 -/

/-- Every member of a set returned by `get_descendants` is a node of the
hierarchy that the query built. -/
theorem get_descendants_sub_nodes (p i : Str) (cfg : HierConfig) (src : SourceData)
    (D : Finset Str) (hq : get_descendants p (some i) cfg src = Except.ok (some D)) :
    ∀ v ∈ D, v ∈ (buildHierarchy p cfg src).nodes := by
  by_cases hc : curieOf p i ∈ (buildHierarchy p cfg src).nodes
  · rw [get_descendants_eq_of_mem p i cfg src hc] at hq
    obtain rfl : (reachB (buildHierarchy p cfg src) (curieOf p i)).erase (curieOf p i) = D :=
      Option.some.inj (Except.ok.inj hq)
    intro v hv
    rw [Finset.mem_erase, mem_reachB] at hv
    exact reaches_src_mem_nodes hv.2 hv.1
  · have := (C2_missing_node p i cfg src hc).1
    rw [this] at hq
    exact Option.noConfusion (Except.ok.inj hq)

/-- C5 (counterexample): the claim says `is_descendent(a, cand)` is true
iff `cand` is in `descendants(a)`.  With the single edge a:1 -> a:2 of
`srcUp`, `is_descendent("a","1","a","2")` returns true, yet
`get_descendants("a","1")` is the empty set, so the candidate a:2 is not
in `descendants(a:1)` — the code actually tests membership of a:1 in
`descendants(a:2)`, the transposed direction. -/
theorem C5_cex :
    is_descendent litA lit1 litA lit2 defCfg srcUp = true ∧
    get_descendants litA (some lit1) defCfg srcUp = Except.ok (some ∅) ∧
    curieOf litA lit2 ∉ (∅ : Finset Str) := by
  decide

/-- C5 (amended): `is_descendent(p, i, ap, ai)` returns true iff the
CURIE p:i is in `get_descendants(ap, ai)` (the transposed direction of
the claim); it returns false without raising when the ancestor side is
unknown (`get_descendants` yields the unknown marker) and also when the
queried CURIE p:i is not a node of the hierarchy. -/
theorem C5_is_descendent (p i ap ai : Str) (cfg : HierConfig) (src : SourceData) :
    (is_descendent p i ap ai cfg src = true ↔
      ∃ D, get_descendants ap (some ai) cfg src = Except.ok (some D) ∧ curieOf p i ∈ D) ∧
    (get_descendants ap (some ai) cfg src = Except.ok none →
      is_descendent p i ap ai cfg src = false) ∧
    (curieOf p i ∉ (buildHierarchy ap cfg src).nodes →
      is_descendent p i ap ai cfg src = false) := by
  refine ⟨?_, ?_, ?_⟩
  · unfold is_descendent
    match hq : get_descendants ap (some ai) cfg src with
    | Except.error e =>
      simp only [Bool.false_eq_true, false_iff]
      rintro ⟨D, hD, -⟩
      cases hD
    | Except.ok none =>
      simp only [Bool.false_eq_true, false_iff]
      rintro ⟨D, hD, -⟩
      exact Option.noConfusion (Except.ok.inj hD)
    | Except.ok (some d) =>
      rw [decide_eq_true_eq]
      constructor
      · intro h
        exact ⟨d, rfl, h⟩
      · rintro ⟨D, hD, hmem⟩
        obtain rfl : d = D := Option.some.inj (Except.ok.inj hD)
        exact hmem
  · intro hq
    unfold is_descendent
    rw [hq]
  · intro hnode
    unfold is_descendent
    match hq : get_descendants ap (some ai) cfg src with
    | Except.error e => rfl
    | Except.ok none => rfl
    | Except.ok (some d) =>
      rw [decide_eq_false_iff_not]
      intro hmem
      exact hnode (get_descendants_sub_nodes ap ai cfg src d hq (curieOf p i) hmem)

/-- Witness for C5: the amended theorem applied concretely — a:1 is in
`get_descendants("a","2")` for the `srcUp` hierarchy, and
`is_descendent` on an unknown CURIE a:9 returns false. -/
theorem C5_wit :
    (is_descendent litA lit1 litA lit2 defCfg srcUp = true ↔
      ∃ D, get_descendants litA (some lit2) defCfg srcUp = Except.ok (some D) ∧
        curieOf litA lit1 ∈ D) ∧
    (curieOf litA lit9 ∉ (buildHierarchy litA defCfg srcUp).nodes ∧
      is_descendent litA lit9 litA lit2 defCfg srcUp = false) :=
  ⟨(C5_is_descendent litA lit1 litA lit2 defCfg srcUp).1,
    by decide,
    (C5_is_descendent litA lit9 litA lit2 defCfg srcUp).2.2 (by decide)⟩

/-! ### Edge-introduction helpers for the builder passes -/

theorem edge_pres_addEdge (e : Str × Str) :
    ∀ (g : Graph) (u v lbl : Str), e ∈ edgePairs g → e ∈ edgePairs (addEdge g u v lbl) :=
  fun _ _ _ _ hg => mem_edgePairs_addEdge.mpr (Or.inr hg)

/-- Edge membership survives the extra-relations and properties stages. -/
theorem edge_in_later_stages (pfx : Str) (cfg : HierConfig) (src : SourceData)
    (e : Str × Str) (g : Graph) (he : e ∈ edgePairs g) :
    e ∈ edgePairs (cfg.propList.foldl (fun g q => propsPass pfx q (src.propVals q) g)
      (cfg.extraRelations.foldl (fun g r => extraPass pfx r (src.rels r) g) g)) := by
  refine foldl_pres (fun g q => propsPass pfx q (src.propVals q) g)
    (fun g' => e ∈ edgePairs g')
    (fun g' q hg =>
      propsPass_pres (fun g'' => e ∈ edgePairs g'') (fun _ _ _ _ hg' => hg')
        pfx q (src.propVals q) g' hg) _ _ ?_
  exact foldl_pres (fun g r => extraPass pfx r (src.rels r) g)
    (fun g' => e ∈ edgePairs g')
    (fun g' r hg =>
      extraPass_pres (fun g'' => e ∈ edgePairs g'')
        (fun g'' u v lbl hg' => edge_pres_addEdge e g'' u v lbl hg')
        pfx r (src.rels r) g' hg) _ _ he

theorem partOfFwd_intro (pfx : Str) (df : List Triple) (t : Triple) (ht : t ∈ df) (g : Graph) :
    (curieOf pfx t.1, curieOf t.2.1 t.2.2) ∈ edgePairs (partOfFwdPass pfx df g) :=
  foldl_intro
    (fun (g : Graph) (a : Triple) =>
      addEdge g (curieOf pfx a.1) (curieOf a.2.1 a.2.2) (String.toList "part_of"))
    (fun g' => (curieOf pfx t.1, curieOf t.2.1 t.2.2) ∈ edgePairs g')
    (fun g' _ hg => edge_pres_addEdge _ g' _ _ _ hg) t
    (fun _ => mem_edgePairs_addEdge.mpr (Or.inl rfl)) df g ht

theorem partOfRev_intro (pfx : Str) (df : List Triple) (t : Triple) (ht : t ∈ df) (g : Graph) :
    (curieOf t.2.1 t.2.2, curieOf pfx t.1) ∈ edgePairs (partOfRevPass pfx df g) :=
  foldl_intro
    (fun (g : Graph) (a : Triple) =>
      addEdge g (curieOf a.2.1 a.2.2) (curieOf pfx a.1) (String.toList "part_of"))
    (fun g' => (curieOf t.2.1 t.2.2, curieOf pfx t.1) ∈ edgePairs g')
    (fun g' _ hg => edge_pres_addEdge _ g' _ _ _ hg) t
    (fun _ => mem_edgePairs_addEdge.mpr (Or.inl rfl)) df g ht

theorem hasMember_intro (pfx : Str) (df : List Triple) (t : Triple) (ht : t ∈ df) (g : Graph) :
    (curieOf t.2.1 t.2.2, curieOf pfx t.1) ∈ edgePairs (hasMemberPass pfx df g) :=
  foldl_intro
    (fun (g : Graph) (a : Triple) =>
      addEdge g (curieOf a.2.1 a.2.2) (curieOf pfx a.1) (String.toList "is_a"))
    (fun g' => (curieOf t.2.1 t.2.2, curieOf pfx t.1) ∈ edgePairs g')
    (fun g' _ hg => edge_pres_addEdge _ g' _ _ _ hg) t
    (fun _ => mem_edgePairs_addEdge.mpr (Or.inl rfl)) df g ht

/-- Both part-of edges of a triple are present in the built hierarchy when
`include_part_of` is set. -/
theorem partOf_edges_in_build (pfx : Str) (cfg : HierConfig) (src : SourceData) (t : Triple)
    (hpo : cfg.includePartOf = true) (ht : t ∈ src.rels partOf) :
    EdgeStep (buildHierarchy pfx cfg src) (curieOf pfx t.1) (curieOf t.2.1 t.2.2) ∧
    EdgeStep (buildHierarchy pfx cfg src) (curieOf t.2.1 t.2.2) (curieOf pfx t.1) := by
  rw [buildHierarchy_eq, hpo, if_pos rfl]
  constructor
  · exact edge_in_later_stages pfx cfg src _ _
      (partOfRevPass_pres _ (fun g u v lbl hg => edge_pres_addEdge _ g u v lbl hg) _ _ _
        (partOfFwd_intro pfx _ t ht _))
  · exact edge_in_later_stages pfx cfg src _ _ (partOfRev_intro pfx _ t ht _)

/-! ### Claim C6 -/

/-- C6 (counterexample): the claim says every part-of triple makes the
whole an ancestor of the part and the part a descendant of the whole.
`srcPartSelf` delivers the self-referential part-of triple
("1", "a", "1"): both produced edges are the self-loop a:1 -> a:1, and
both closures of a:1 are empty — the "whole" (a:1) is not an ancestor of
the "part" (a:1), because the networkx closures exclude the queried
node. -/
theorem C6_cex :
    ((lit1, litA, lit1) : Triple) ∈ srcPartSelf.rels partOf ∧
    EdgeStep (buildHierarchy litA defCfg srcPartSelf) (curieOf litA lit1) (curieOf litA lit1) ∧
    nxDescendants (buildHierarchy litA defCfg srcPartSelf) (curieOf litA lit1) = some ∅ ∧
    nxAncestors (buildHierarchy litA defCfg srcPartSelf) (curieOf litA lit1) = some ∅ := by
  decide

/-- C6 (amended): with `include_part_of` set, every part-of triple
(s, tgtNs, tgtId) produces both the forward edge
namespace:s -> tgtNs:tgtId and the reverse edge tgtNs:tgtId ->
namespace:s in the built graph; and whenever part and whole are distinct
CURIEs, the whole lies in the part's forward closure (the set
`nx.descendants` computes for `get_ancestors`) and the part lies in the
whole's backward closure (the set `nx.ancestors` computes for
`get_descendants`). -/
theorem C6_part_of (pfx : Str) (cfg : HierConfig) (src : SourceData) (t : Triple)
    (hpo : cfg.includePartOf = true) (ht : t ∈ src.rels partOf) :
    EdgeStep (buildHierarchy pfx cfg src) (curieOf pfx t.1) (curieOf t.2.1 t.2.2) ∧
    EdgeStep (buildHierarchy pfx cfg src) (curieOf t.2.1 t.2.2) (curieOf pfx t.1) ∧
    (curieOf pfx t.1 ≠ curieOf t.2.1 t.2.2 →
      (∃ S, nxDescendants (buildHierarchy pfx cfg src) (curieOf pfx t.1) = some S ∧
        curieOf t.2.1 t.2.2 ∈ S) ∧
      (∃ D, nxAncestors (buildHierarchy pfx cfg src) (curieOf t.2.1 t.2.2) = some D ∧
        curieOf pfx t.1 ∈ D)) := by
  obtain ⟨hfwd, hrev⟩ := partOf_edges_in_build pfx cfg src t hpo ht
  refine ⟨hfwd, hrev, fun hne => ⟨?_, ?_⟩⟩
  · rw [nxDescendants, if_pos (build_endpoints pfx cfg src _ hfwd).1]
    exact ⟨_, rfl, Finset.mem_erase.mpr
      ⟨Ne.symm hne, mem_reachF.mpr (Relation.ReflTransGen.single hfwd)⟩⟩
  · rw [nxAncestors, if_pos (build_endpoints pfx cfg src _ hfwd).2]
    exact ⟨_, rfl, Finset.mem_erase.mpr
      ⟨hne, mem_reachB.mpr (Relation.ReflTransGen.single hfwd)⟩⟩

/-- Witness for C6: the amended theorem applied to the part-of triple
("1", "a", "2") of `srcPart`: both edges exist and a:2 is in the forward
closure of a:1. -/
theorem C6_wit :
    (defCfg.includePartOf = true ∧ ((lit1, litA, lit2) : Triple) ∈ srcPart.rels partOf ∧
      curieOf litA lit1 ≠ curieOf litA lit2) ∧
    (∃ S, nxDescendants (buildHierarchy litA defCfg srcPart) (curieOf litA lit1) = some S ∧
      curieOf litA lit2 ∈ S) :=
  ⟨by decide,
    ((C6_part_of litA defCfg srcPart (lit1, litA, lit2) rfl (by decide)).2.2 (by decide)).1⟩

/-! ### Claim C7 -/

/-- After the has-member loop, the edge produced from a triple carries
the `is_a` relation label (every write of the loop uses `is_a`). -/
theorem hasMemberPass_label (pfx : Str) (df : List Triple) (t : Triple) (ht : t ∈ df)
    (g : Graph) :
    getAssoc (hasMemberPass pfx df g).edges (curieOf t.2.1 t.2.2, curieOf pfx t.1) =
      some (String.toList "is_a") := by
  refine foldl_intro _
    (fun g' => getAssoc g'.edges (curieOf t.2.1 t.2.2, curieOf pfx t.1) =
      some (String.toList "is_a")) (fun g' a hg => ?_) t (fun g' => ?_) df g ht
  · show getAssoc (setAssoc g'.edges _ _) _ = _
    rw [getAssoc_setAssoc]
    split
    · rfl
    · exact hg
  · show getAssoc (setAssoc g'.edges _ _) _ = _
    rw [getAssoc_setAssoc, if_pos rfl]

/-- The has-member loop adds exactly the owner -> member edges of its
triples (in particular, no reverse edges). -/
theorem hasMemberPass_exact (pfx : Str) (df : List Triple) (g : Graph) (e : Str × Str) :
    e ∈ edgePairs (hasMemberPass pfx df g) ↔
      e ∈ edgePairs g ∨ ∃ t ∈ df, e = (curieOf t.2.1 t.2.2, curieOf pfx t.1) := by
  induction df generalizing g with
  | nil => simp [hasMemberPass]
  | cons t ts ih =>
    have hstep : hasMemberPass pfx (t :: ts) g =
        hasMemberPass pfx ts
          (addEdge g (curieOf t.2.1 t.2.2) (curieOf pfx t.1) (String.toList "is_a")) := rfl
    rw [hstep, ih, mem_edgePairs_addEdge]
    constructor
    · rintro ((rfl | hg) | ⟨t', ht', rfl⟩)
      · exact Or.inr ⟨t, List.mem_cons_self t ts, rfl⟩
      · exact Or.inl hg
      · exact Or.inr ⟨t', List.mem_cons_of_mem t ht', rfl⟩
    · rintro (hg | ⟨t', ht', rfl⟩)
      · exact Or.inl (Or.inr hg)
      · rcases List.mem_cons.mp ht' with rfl | ht''
        · exact Or.inl (Or.inl rfl)
        · exact Or.inr ⟨t', ht'', rfl⟩

/-- C7: with `include_has_member` set, every has-member triple
(member, ownerNs, owner) produces exactly the edge
ownerNs:owner -> namespace:member: after the has-member loop that edge
carries the `is_a` label, the loop adds no other edges (in particular
not the reverse orientation), the edge is present in every built
hierarchy with the flag set, and in a build without competing part-of or
extra-relation passes the final label is `is_a`. -/
theorem C7_has_member (pfx : Str) :
    (∀ df g t, t ∈ df → getAssoc (hasMemberPass pfx df g).edges
        (curieOf t.2.1 t.2.2, curieOf pfx t.1) = some (String.toList "is_a")) ∧
    (∀ df g e, e ∈ edgePairs (hasMemberPass pfx df g) ↔
        e ∈ edgePairs g ∨ ∃ t ∈ df, e = (curieOf t.2.1 t.2.2, curieOf pfx t.1)) ∧
    (∀ cfg src t, cfg.includeHasMember = true → t ∈ src.rels hasMember →
        EdgeStep (buildHierarchy pfx cfg src) (curieOf t.2.1 t.2.2) (curieOf pfx t.1)) ∧
    (∀ cfg src t, cfg.includeHasMember = true → cfg.includePartOf = false →
        cfg.extraRelations = [] → t ∈ src.rels hasMember →
        getAssoc (buildHierarchy pfx cfg src).edges
          (curieOf t.2.1 t.2.2, curieOf pfx t.1) = some (String.toList "is_a")) := by
  refine ⟨fun df g t ht => hasMemberPass_label pfx df t ht g,
    fun df g e => hasMemberPass_exact pfx df g e, ?_, ?_⟩
  · intro cfg src t hhm ht
    rw [buildHierarchy_eq, hhm]
    show _ ∈ edgePairs _
    split
    · exact edge_in_later_stages pfx cfg src _ _
        (partOfRevPass_pres _ (fun g u v lbl hg => edge_pres_addEdge _ g u v lbl hg) _ _ _
          (partOfFwdPass_pres _ (fun g u v lbl hg => edge_pres_addEdge _ g u v lbl hg) _ _ _
            (by rw [if_pos rfl]; exact hasMember_intro pfx _ t ht _)))
    · exact edge_in_later_stages pfx cfg src _ _
        (by rw [if_pos rfl]; exact hasMember_intro pfx _ t ht _)
  · intro cfg src t hhm hpo hex ht
    rw [buildHierarchy_eq, hhm, hpo, hex, if_neg (by simp), if_pos rfl]
    rw [List.foldl_nil]
    refine foldl_pres (fun g q => propsPass pfx q (src.propVals q) g)
      (fun g' => getAssoc g'.edges (curieOf t.2.1 t.2.2, curieOf pfx t.1) =
        some (String.toList "is_a"))
      (fun g' q hg =>
        propsPass_pres
          (fun g'' => getAssoc g''.edges (curieOf t.2.1 t.2.2, curieOf pfx t.1) =
            some (String.toList "is_a"))
          (fun _ _ _ _ hg' => hg') pfx q (src.propVals q) g' hg) _ _ ?_
    exact hasMemberPass_label pfx _ t ht _

/-- Witness for C7: the theorem applied to the has-member triple
("1", "a", "2") of `srcMember` under `hmCfg`: the folded edge
a:2 -> a:1 is present and labeled `is_a` in the built graph. -/
theorem C7_wit :
    (hmCfg.includeHasMember = true ∧ hmCfg.includePartOf = false ∧
      hmCfg.extraRelations = [] ∧ ((lit1, litA, lit2) : Triple) ∈ srcMember.rels hasMember) ∧
    EdgeStep (buildHierarchy litA hmCfg srcMember) (curieOf litA lit2) (curieOf litA lit1) ∧
    getAssoc (buildHierarchy litA hmCfg srcMember).edges
      (curieOf litA lit2, curieOf litA lit1) = some (String.toList "is_a") :=
  ⟨by decide,
    (C7_has_member litA).2.2.1 hmCfg srcMember (lit1, litA, lit2) rfl (by decide),
    (C7_has_member litA).2.2.2 hmCfg srcMember (lit1, litA, lit2) rfl rfl rfl (by decide)⟩

/-! ### Claim C8 -/

/-- C8 (counterexample): the claim says a `force=true` call on an
already-built-and-memoized parameter configuration returns the
previously memoized graph without rebuilding.  Starting from an empty
cache, a `force=false` call on `keyF` builds and memoizes its
configuration (builds = 1); the subsequent call on the same
configuration with `force=true` (`keyT`) misses the cache — `force` is
part of the `lru_cache` key — so the builder runs again (builds = 2) and
the returned graph, built from freshly fetched data, differs from the
memoized one. -/
theorem C8_cex :
    (helperCall ⟨[], 0⟩ keyF fetchEx).2.builds = 1 ∧
    (helperCall (helperCall ⟨[], 0⟩ keyF fetchEx).2 keyT fetchEx).2.builds = 2 ∧
    (helperCall (helperCall ⟨[], 0⟩ keyF fetchEx).2 keyT fetchEx).1 ≠
      (helperCall ⟨[], 0⟩ keyF fetchEx).1 := by
  decide

/-- C8 (amended): the memoization key of `_get_hierarchy_helper` is the
full argument tuple including `force`.  A call whose full key (with
whatever `force` value, in particular `force=true`) is already memoized
returns the stored graph with the state unchanged — the result cache is
never bypassed; a call whose full key is missing runs the builder
against source data fetched with the call's own `force` flag, so a
`force=true` call after only a `force=false` build rebuilds instead of
returning the stale memoized graph. -/
theorem C8_memo (st : MemoState) (k : HelperKey) (fetch : Bool → SourceData) :
    (∀ g, getAssoc st.cache k = some g → helperCall st k fetch = (g, st)) ∧
    (getAssoc st.cache k = none →
      helperCall st k fetch =
        (buildHierarchy k.pfx k.cfg (fetch k.force),
          ⟨setAssoc st.cache k (buildHierarchy k.pfx k.cfg (fetch k.force)),
            st.builds + 1⟩)) := by
  constructor
  · intro g hg
    unfold helperCall
    rw [hg]
  · intro hnone
    unfold helperCall
    rw [hnone]

/-- Witness for C8: a repeated call with the memoized `force=true` key
returns the stored graph with no rebuild. -/
theorem C8_wit :
    getAssoc stMemo.cache keyT = some memoG ∧
    helperCall stMemo keyT fetchEx = (memoG, stMemo) :=
  ⟨by decide, (C8_memo stMemo keyT fetchEx).1 memoG (by decide)⟩

/-! ### Claim C9 -/

theorem curieOf_inj {p i j : Str} (h : curieOf p i = curieOf p j) : i = j := by
  have h2 : ':' :: i = ':' :: j := List.append_cancel_left h
  injection h2

theorem propsPass_nodes (pfx : Str) (q : Ref) :
    ∀ (pm : List (Str × Str)) (g : Graph), (propsPass pfx q pm g).nodes = g.nodes := by
  intro pm
  induction pm with
  | nil => exact fun _ => rfl
  | cons kv rest ih =>
    intro g
    have hstep : propsPass pfx q (kv :: rest) g =
        propsPass pfx q rest
          (if curieOf pfx kv.1 ∈ g.nodes then setAttr g (curieOf pfx kv.1) q kv.2 else g) :=
      rfl
    rw [hstep, ih]
    split <;> rfl

theorem propsPass_edges (pfx : Str) (q : Ref) :
    ∀ (pm : List (Str × Str)) (g : Graph), (propsPass pfx q pm g).edges = g.edges := by
  intro pm
  induction pm with
  | nil => exact fun _ => rfl
  | cons kv rest ih =>
    intro g
    have hstep : propsPass pfx q (kv :: rest) g =
        propsPass pfx q rest
          (if curieOf pfx kv.1 ∈ g.nodes then setAttr g (curieOf pfx kv.1) q kv.2 else g) :=
      rfl
    rw [hstep, ih]
    split <;> rfl

/-- Decomposition of the build: the property loops run on top of the
graph built from the relation passes alone. -/
theorem build_base (pfx : Str) (cfg : HierConfig) (src : SourceData) :
    buildHierarchy pfx cfg src =
      cfg.propList.foldl (fun g q => propsPass pfx q (src.propVals q) g)
        (buildHierarchy pfx
          ⟨cfg.includePartOf, cfg.includeHasMember, cfg.extraRelations, []⟩ src) := rfl

/-- A build with no requested properties attaches no node attributes. -/
theorem build_nattrs_nil (pfx : Str) (cfg : HierConfig) (src : SourceData)
    (hpl : cfg.propList = []) : (buildHierarchy pfx cfg src).nattrs = [] := by
  rw [buildHierarchy_eq, hpl, List.foldl_nil]
  have hE : ∀ (g : Graph) (u v lbl : Str), g.nattrs = [] → (addEdge g u v lbl).nattrs = [] :=
    fun _ _ _ _ h => h
  refine foldl_pres (fun g r => extraPass pfx r (src.rels r) g) (fun g' => g'.nattrs = [])
    (fun g' r hg =>
      extraPass_pres (fun g'' => g''.nattrs = []) hE pfx r (src.rels r) g' hg) _ _ ?_
  split
  · refine partOfRevPass_pres (fun g' => g'.nattrs = []) hE _ _ _
      (partOfFwdPass_pres (fun g' => g'.nattrs = []) hE _ _ _ ?_)
    split
    · exact hasMemberPass_pres (fun g' => g'.nattrs = []) hE _ _ _
        (isaPass_pres (fun g' => g'.nattrs = []) hE _ _ _ rfl)
    · exact isaPass_pres (fun g' => g'.nattrs = []) hE _ _ _ rfl
  · split
    · exact hasMemberPass_pres (fun g' => g'.nattrs = []) hE _ _ _
        (isaPass_pres (fun g' => g'.nattrs = []) hE _ _ _ rfl)
    · exact isaPass_pres (fun g' => g'.nattrs = []) hE _ _ _ rfl

/-- The property loops change neither the node list nor the edge list. -/
theorem build_nodes_edges (pfx : Str) (cfg : HierConfig) (src : SourceData) :
    (buildHierarchy pfx cfg src).nodes =
      (buildHierarchy pfx
        ⟨cfg.includePartOf, cfg.includeHasMember, cfg.extraRelations, []⟩ src).nodes ∧
    (buildHierarchy pfx cfg src).edges =
      (buildHierarchy pfx
        ⟨cfg.includePartOf, cfg.includeHasMember, cfg.extraRelations, []⟩ src).edges := by
  rw [build_base pfx cfg src]
  exact foldl_pres (fun g q => propsPass pfx q (src.propVals q) g)
    (fun g' => g'.nodes =
        (buildHierarchy pfx
          ⟨cfg.includePartOf, cfg.includeHasMember, cfg.extraRelations, []⟩ src).nodes ∧
      g'.edges =
        (buildHierarchy pfx
          ⟨cfg.includePartOf, cfg.includeHasMember, cfg.extraRelations, []⟩ src).edges)
    (fun g' q hg => ⟨by rw [propsPass_nodes]; exact hg.1, by rw [propsPass_edges]; exact hg.2⟩)
    _ _ ⟨rfl, rfl⟩

/-- A stored attribute value survives later property loops whose writes
cannot disagree on its key. -/
theorem propsPass_attr_stable (pfx : Str) (r : Ref) (c : Str) (q : Ref) (v : Str) :
    ∀ (pmr : List (Str × Str)),
      (∀ j w, (j, w) ∈ pmr → r = q → curieOf pfx j = c → w = v) →
      ∀ g, getAssoc g.nattrs (c, q) = some v →
        getAssoc (propsPass pfx r pmr g).nattrs (c, q) = some v := by
  intro pmr
  induction pmr with
  | nil => exact fun _ g h => h
  | cons kv rest ih =>
    intro hcond g hg
    have hstep : propsPass pfx r (kv :: rest) g =
        propsPass pfx r rest
          (if curieOf pfx kv.1 ∈ g.nodes then setAttr g (curieOf pfx kv.1) r kv.2 else g) :=
      rfl
    rw [hstep]
    refine ih (fun j w hjw hrq hcj => hcond j w (List.mem_cons_of_mem kv hjw) hrq hcj) _ ?_
    split
    · show getAssoc (setAssoc g.nattrs _ _) _ = _
      rw [getAssoc_setAssoc]
      split
      · rename_i heq
        have h1 : curieOf pfx kv.1 = c := (congrArg Prod.fst heq).symm
        have h2 : r = q := (congrArg Prod.snd heq).symm
        rw [hcond kv.1 kv.2 (List.mem_cons_self kv rest) h2 h1]
      · exact hg
    · exact hg

/-- The property loop stores the value of a present pair whose CURIE is a
node, keyed by the property reference. -/
theorem propsPass_attr_intro (pfx : Str) (q : Ref) (i v : Str) :
    ∀ (pm : List (Str × Str)), (pm.map Prod.fst).Nodup → (i, v) ∈ pm →
      ∀ g, curieOf pfx i ∈ g.nodes →
        getAssoc (propsPass pfx q pm g).nattrs (curieOf pfx i, q) = some v := by
  intro pm
  induction pm with
  | nil => intro _ hmem; cases hmem
  | cons kv rest ih =>
    intro hnd hmem g hg
    have hstep : propsPass pfx q (kv :: rest) g =
        propsPass pfx q rest
          (if curieOf pfx kv.1 ∈ g.nodes then setAttr g (curieOf pfx kv.1) q kv.2 else g) :=
      rfl
    rw [hstep]
    simp only [List.map_cons, List.nodup_cons] at hnd
    rcases List.mem_cons.mp hmem with heq | hmem'
    · obtain rfl : kv = (i, v) := heq.symm
      rw [if_pos hg]
      refine propsPass_attr_stable pfx q (curieOf pfx i) q v rest ?_ _ ?_
      · intro j w hjw _ hcj
        obtain rfl : j = i := curieOf_inj hcj
        exact absurd (List.mem_map.mpr ⟨(j, w), hjw, rfl⟩) hnd.1
      · show getAssoc (setAssoc g.nattrs _ _) _ = _
        rw [getAssoc_setAssoc, if_pos rfl]
    · refine ih hnd.2 hmem' _ ?_
      split
      · rw [nodes_setAttr]; exact hg
      · exact hg

/-- Running the whole property stage stores the value of every pair whose
CURIE is a node. -/
theorem propsFold_attr (pfx : Str) (src : SourceData) (q : Ref) (i v : Str)
    (hnd : ((src.propVals q).map Prod.fst).Nodup)
    (hmem : (i, v) ∈ src.propVals q) :
    ∀ (L : List Ref) (g : Graph), q ∈ L → curieOf pfx i ∈ g.nodes →
      getAssoc (L.foldl (fun g r => propsPass pfx r (src.propVals r) g) g).nattrs
        (curieOf pfx i, q) = some v := by
  intro L
  induction L with
  | nil => intro g hq; cases hq
  | cons r rest ih =>
    intro g hq hg
    have hstep : (r :: rest).foldl (fun g r => propsPass pfx r (src.propVals r) g) g =
        rest.foldl (fun g r => propsPass pfx r (src.propVals r) g)
          (propsPass pfx r (src.propVals r) g) := rfl
    rw [hstep]
    rcases List.mem_cons.mp hq with heq | hq'
    · refine foldl_pres (fun g r' => propsPass pfx r' (src.propVals r') g)
        (fun g' => getAssoc g'.nattrs (curieOf pfx i, q) = some v)
        (fun g' r' hg' =>
          propsPass_attr_stable pfx r' (curieOf pfx i) q v (src.propVals r') ?_ g' hg')
        rest _ ?_
      · intro j w hjw hrq hcj
        obtain rfl : j = i := curieOf_inj hcj
        rw [hrq] at hjw
        exact getAssoc_unique (src.propVals q) hnd hjw hmem
      · rw [← heq]
        exact propsPass_attr_intro pfx q i v (src.propVals q) hnd hmem g hg
    · exact ih _ hq' (by rw [propsPass_nodes]; exact hg)

/-- Pairs whose CURIE is not a node leave no attribute behind. -/
theorem propsPass_attr_none (pfx : Str) (r : Ref) (c : Str) (q : Ref) :
    ∀ (pm : List (Str × Str)) (g : Graph), c ∉ g.nodes →
      getAssoc g.nattrs (c, q) = none →
      getAssoc (propsPass pfx r pm g).nattrs (c, q) = none := by
  intro pm
  induction pm with
  | nil => exact fun g _ h => h
  | cons kv rest ih =>
    intro g hcn hg
    have hstep : propsPass pfx r (kv :: rest) g =
        propsPass pfx r rest
          (if curieOf pfx kv.1 ∈ g.nodes then setAttr g (curieOf pfx kv.1) r kv.2 else g) :=
      rfl
    rw [hstep]
    by_cases hn : curieOf pfx kv.1 ∈ g.nodes
    · rw [if_pos hn]
      refine ih _ (by rw [nodes_setAttr]; exact hcn) ?_
      show getAssoc (setAssoc g.nattrs _ _) _ = _
      rw [getAssoc_setAssoc, if_neg ?_]
      · exact hg
      · intro heq
        have h1 : c = curieOf pfx kv.1 := congrArg Prod.fst heq
        exact hcn (by rw [h1]; exact hn)
    · rw [if_neg hn]
      exact ih _ hcn hg

theorem propsFold_attr_none (pfx : Str) (src : SourceData) (c : Str) (q : Ref)
    (L : List Ref) (g : Graph) (h1 : c ∉ g.nodes)
    (h2 : getAssoc g.nattrs (c, q) = none) :
    getAssoc ((L.foldl (fun g r => propsPass pfx r (src.propVals r) g) g)).nattrs
      (c, q) = none :=
  (foldl_pres (fun g r => propsPass pfx r (src.propVals r) g)
    (fun g' => c ∉ g'.nodes ∧ getAssoc g'.nattrs (c, q) = none)
    (fun g' r hg => ⟨by rw [propsPass_nodes]; exact hg.1,
      propsPass_attr_none pfx r c q (src.propVals r) g' hg.1 hg.2⟩)
    L g ⟨h1, h2⟩).2

/-- C9: for every requested property with a duplicate-free mapping (as a
Python dict delivers), a pair whose CURIE is a node of the
relation-edge graph is stored on that node keyed by the property
reference; a pair whose CURIE is not a node is dropped silently — no
attribute is recorded for it — and the property stage leaves the node
and edge lists of the graph unchanged. -/
theorem C9_properties (pfx : Str) (cfg : HierConfig) (src : SourceData)
    (hnd : ∀ q ∈ cfg.propList, ((src.propVals q).map Prod.fst).Nodup) :
    ((buildHierarchy pfx cfg src).nodes =
        (buildHierarchy pfx
          ⟨cfg.includePartOf, cfg.includeHasMember, cfg.extraRelations, []⟩ src).nodes ∧
      (buildHierarchy pfx cfg src).edges =
        (buildHierarchy pfx
          ⟨cfg.includePartOf, cfg.includeHasMember, cfg.extraRelations, []⟩ src).edges) ∧
    (∀ q i v, q ∈ cfg.propList → (i, v) ∈ src.propVals q →
      curieOf pfx i ∈
        (buildHierarchy pfx
          ⟨cfg.includePartOf, cfg.includeHasMember, cfg.extraRelations, []⟩ src).nodes →
      getAssoc (buildHierarchy pfx cfg src).nattrs (curieOf pfx i, q) = some v) ∧
    (∀ c q, c ∉
        (buildHierarchy pfx
          ⟨cfg.includePartOf, cfg.includeHasMember, cfg.extraRelations, []⟩ src).nodes →
      getAssoc (buildHierarchy pfx cfg src).nattrs (c, q) = none) := by
  refine ⟨build_nodes_edges pfx cfg src, ?_, ?_⟩
  · intro q i v hq hmem hnode
    rw [build_base pfx cfg src]
    exact propsFold_attr pfx src q i v (hnd q hq) hmem cfg.propList _ hq hnode
  · intro c q hc
    rw [build_base pfx cfg src]
    refine propsFold_attr_none pfx src c q cfg.propList _ hc ?_
    rw [build_nattrs_nil pfx _ src rfl]
    rfl

/-- Witness for C9: in the `srcProps` hierarchy under `pCfg`, the value
for present node a:1 is stored under the property reference, the value
for the absent local id "9" leaves no attribute, and the node list
equals that of the property-free build. -/
theorem C9_wit :
    (∀ q ∈ pCfg.propList, ((srcProps.propVals q).map Prod.fst).Nodup) ∧
    getAssoc (buildHierarchy litA pCfg srcProps).nattrs (curieOf litA lit1, qRef) =
      some (String.toList "v1") ∧
    getAssoc (buildHierarchy litA pCfg srcProps).nattrs (curieOf litA lit9, qRef) = none ∧
    (buildHierarchy litA pCfg srcProps).nodes =
      (buildHierarchy litA
        ⟨pCfg.includePartOf, pCfg.includeHasMember, pCfg.extraRelations, []⟩ srcProps).nodes :=
  ⟨by decide,
    (C9_properties litA pCfg srcProps (by decide)).2.1 qRef lit1 (String.toList "v1")
      (by decide) (by decide) (by decide),
    (C9_properties litA pCfg srcProps (by decide)).2.2 (curieOf litA lit9) qRef (by decide),
    (C9_properties litA pCfg srcProps (by decide)).1.1⟩

/-! ### Claim C10 -/

theorem pysplit_no_sep {sep : Char} :
    ∀ {s : Str}, sep ∉ s → pysplit s sep = [s] := by
  intro s
  induction s with
  | nil => intro _; rfl
  | cons c rest ih =>
    intro h
    have hc : ¬c = sep := fun heq => h (List.mem_cons.mpr (Or.inl heq.symm))
    have hr : sep ∉ rest := fun hh => h (List.mem_cons_of_mem c hh)
    simp only [pysplit, if_neg hc, ih hr]

theorem pysplit_curie (i : Str) (hi : ':' ∉ i) :
    ∀ p : Str, ':' ∉ p → pysplit (curieOf p i) ':' = [p, i] := by
  intro p
  induction p with
  | nil =>
    intro _
    show pysplit (':' :: i) ':' = [[], i]
    simp only [pysplit, pysplit_no_sep hi, eq_self_iff_true, if_true]
  | cons c cp ih =>
    intro hp
    have hc : ¬c = ':' := fun heq => hp (List.mem_cons.mpr (Or.inl heq.symm))
    have hp' : ':' ∉ cp := fun hh => hp (List.mem_cons_of_mem c hh)
    show pysplit (c :: curieOf cp i) ':' = [c :: cp, i]
    simp only [pysplit, if_neg hc, ih hp']

theorem pic_curie (p i : Str) (hp : ':' ∉ p) (hi : ':' ∉ i) :
    pic (curieOf p i) none = pic p (some i) := by
  unfold pic
  rw [pysplit_curie i hi p hp]

/-- C10: for colon-free `p` and `i`, so that the string `p:i` contains
exactly one colon, each query called with the single CURIE argument
(identifier omitted) returns the same result as the two-argument call
with prefix `p` and identifier `i`. -/
theorem C10_curie_parsing (p i : Str) (cfg : HierConfig) (src : SourceData)
    (hp : ':' ∉ p) (hi : ':' ∉ i) :
    get_descendants (curieOf p i) none cfg src = get_descendants p (some i) cfg src ∧
    get_children (curieOf p i) none cfg src = get_children p (some i) cfg src ∧
    get_ancestors (curieOf p i) none cfg src = get_ancestors p (some i) cfg src ∧
    get_subhierarchy (curieOf p i) none cfg src = get_subhierarchy p (some i) cfg src := by
  refine ⟨?_, ?_, ?_, ?_⟩ <;>
    simp only [get_descendants, get_children, get_ancestors, get_subhierarchy,
      pic_curie p i hp hi]

/-- Witness for C10: the parsing equivalence applied to the CURIE "a:1"
over the `srcUp` hierarchy. -/
theorem C10_wit :
    (':' ∉ litA ∧ ':' ∉ lit1) ∧
    get_descendants (curieOf litA lit1) none defCfg srcUp =
      get_descendants litA (some lit1) defCfg srcUp :=
  ⟨by decide, (C10_curie_parsing litA lit1 defCfg srcUp (by decide) (by decide)).1⟩

end PyObo
